import Mathlib

/-!
Verification of the byteio crate (src/lib.rs): byte-order policies
(LittleEndian, BigEndian, and the NetworkByteOrder and NativeByteOrder
aliases), the per-type conversions from_bytes / into_bytes / buffer
produced by the impl_byte_order! macro, and the stream extension
operations read_as / write_as.

Modelling choices, faithful to the source on a little-endian host (the
observable behaviour of from_bytes and into_bytes is host-independent,
since transmute composed with to_le always realises the little-endian
interpretation and transmute composed with to_be the big-endian one):
  - every supported numeric value is represented by its bit pattern, a
    natural number below 256 ^ byteSize t; signed integers and floats are
    transmuted through the same-width unsigned type in the source, so all
    conversions act on bit patterns only (which is exactly what makes them
    preserve NaN payloads, signed zeros and infinities);
  - a conversion buffer is a list of bytes (naturals below 256);
  - transmute of a buffer to an integer on a little-endian host assembles
    the bytes little-endian (fromBytesLE), transmute of an integer to a
    buffer lays its bytes out little-endian (toBytesLE);
  - to_le on a little-endian host is the identity, to_be swaps the bytes;
  - the io::Read source is modelled as a state-passing function returning
    the bytes delivered by one read attempt (written into the front of the
    zero-initialised buffer) or an error; the io::Write sink as a
    state-passing function consuming a byte list; the in-memory instances
    sliceRead and vecWrite model the standard Read impl for byte slices
    (deliver min(requested, remaining) bytes, advance past them) and the
    Write impl for byte vectors (append everything, never fail).
-/

namespace Byteio

/-- The supported numeric types of the crate: the impl_byte_order! macro
instantiates the ByteOrder trait for u8, u16, u32, u64, i8, i16, i32, i64
and, by explicit impls inside the macro, f32 and f64. -/
inductive NumTy where
  | u8
  | u16
  | u32
  | u64
  | i8
  | i16
  | i32
  | i64
  | f32
  | f64
deriving DecidableEq

/-- Byte width of each numeric type, the `$bytes` argument of
impl_byte_order! (1, 2, 4 or 8). -/
def byteSize : NumTy → Nat
  | .u8 => 1
  | .u16 => 2
  | .u32 => 4
  | .u64 => 8
  | .i8 => 1
  | .i16 => 2
  | .i32 => 4
  | .i64 => 8
  | .f32 => 4
  | .f64 => 8

/-- The two concrete byte-order policies, the empty enums LittleEndian and
BigEndian of the source. -/
inductive ByteOrderPolicy where
  | LittleEndian
  | BigEndian
deriving DecidableEq

/-- The source alias `pub type NetworkByteOrder = LittleEndian;`
(little-endian, even though conventional network byte order is
big-endian). -/
def NetworkByteOrder : ByteOrderPolicy := ByteOrderPolicy.LittleEndian

/-- The source alias for the system-native byte order on a little-endian
target: `pub type NativeByteOrder = LittleEndian;`. -/
def NativeByteOrder : ByteOrderPolicy := ByteOrderPolicy.LittleEndian

/-- Little-endian assembly of a byte list into a natural number: the
meaning of `mem::transmute::<Buffer, uN>` on a little-endian host. -/
def fromBytesLE : List Nat → Nat
  | [] => 0
  | b :: rest => b + 256 * fromBytesLE rest

/-- Little-endian disassembly of a natural number into `w` bytes: the
meaning of `mem::transmute::<uN, Buffer>` on a little-endian host. -/
def toBytesLE : Nat → Nat → List Nat
  | 0, _ => []
  | w + 1, n => n % 256 :: toBytesLE w (n / 256)

/-- Rust `n.to_le()` on a little-endian host: the identity on the bit
pattern. -/
def to_le (_w : Nat) (n : Nat) : Nat := n

/-- Rust `n.to_be()` on a little-endian host: reverse the `w` bytes of the
bit pattern. -/
def to_be (w : Nat) (n : Nat) : Nat :=
  fromBytesLE (toBytesLE w n).reverse

/-- The `$convert` conversion chosen by impl_byte_order!: `to_le` for the
LittleEndian impls, `to_be` for the BigEndian impls. -/
def convert : ByteOrderPolicy → Nat → Nat → Nat
  | .LittleEndian, w, n => to_le w n
  | .BigEndian, w, n => to_be w n

/-- `fn from_bytes(buf: Self::Buffer) -> T`:
`unsafe { mem::transmute::<_, T>(buf) }.$convert()` — assemble the buffer
natively, then apply the conversion of the policy. The float impls
transmute through the same-width unsigned integer, which is the same
action on bit patterns. -/
def from_bytes (p : ByteOrderPolicy) (t : NumTy) (buf : List Nat) : Nat :=
  convert p (byteSize t) (fromBytesLE buf)

/-- `fn into_bytes(n: T) -> Self::Buffer`:
`unsafe { mem::transmute(n.$convert()) }` — apply the conversion of the
policy, then lay the result out natively. -/
def into_bytes (p : ByteOrderPolicy) (t : NumTy) (n : Nat) : List Nat :=
  toBytesLE (byteSize t) (convert p (byteSize t) n)

/-- `fn buffer() -> Self::Buffer { [0; $bytes] }`: the zero-initialised
conversion buffer of each (policy, type) impl. -/
def buffer (_p : ByteOrderPolicy) (t : NumTy) : List Nat :=
  List.replicate (byteSize t) 0

/-- The effect of `self.read(buf.as_mut())` on the zero-initialised
buffer: the delivered bytes overwrite the front, the rest keeps its
previous contents. -/
def fillBuffer (buf delivered : List Nat) : List Nat :=
  delivered ++ buf.drop delivered.length

/-- `fn read_as<B: ByteOrder<T>>(&mut self) -> io::Result<T>` from the
blanket `impl<T, R: io::Read> ReadBytesExt<T> for R`: obtain the zeroed
buffer, issue one read call, propagate its error, fail with
"could not read all bytes" when the delivered count differs from the
buffer length, otherwise convert the filled buffer with from_bytes. The
reader is a state-passing function from a state and a requested length to
the delivered bytes (or an error) and the successor state. -/
def read_as {σ : Type} (read : σ → Nat → Except String (List Nat) × σ)
    (p : ByteOrderPolicy) (t : NumTy) (s : σ) : Except String Nat × σ :=
  let buf := buffer p t
  match read s buf.length with
  | (Except.error e, s') => (Except.error e, s')
  | (Except.ok delivered, s') =>
    if delivered.length ≠ buf.length then
      (Except.error "could not read all bytes", s')
    else
      (Except.ok (from_bytes p t (fillBuffer buf delivered)), s')

/-- `fn write_as<B: ByteOrder<T>>(&mut self, n: T) -> io::Result<()>` from
the blanket `impl<T, W: io::Write> WriteBytesExt<T> for W`: convert with
into_bytes and hand the buffer to write_all of the sink. -/
def write_as {σ : Type} (writeAll : σ → List Nat → Except String Unit × σ)
    (p : ByteOrderPolicy) (t : NumTy) (n : Nat) (s : σ) : Except String Unit × σ :=
  writeAll s (into_bytes p t n)

/-- The standard `impl Read for &[u8]`: one read attempt delivers
min(requested, remaining) bytes and the slice advances past them. The
state is the remaining byte slice. -/
def sliceRead (s : List Nat) (w : Nat) : Except String (List Nat) × List Nat :=
  (Except.ok (s.take w), s.drop w)

/-- The standard `impl Write for Vec<u8>`: write_all appends every byte
and never fails. The state is the accumulated byte vector. -/
def vecWrite (s : List Nat) (buf : List Nat) : Except String Unit × List Nat :=
  (Except.ok (), s ++ buf)

theorem toBytesLE_length (w n : Nat) : (toBytesLE w n).length = w := by
  induction w generalizing n with
  | zero => rfl
  | succ w ih => simp [toBytesLE, ih]

theorem toBytesLE_mem_lt (w n : Nat) : ∀ x ∈ toBytesLE w n, x < 256 := by
  induction w generalizing n with
  | zero => intro x hx; simp [toBytesLE] at hx
  | succ w ih =>
    intro x hx
    simp only [toBytesLE, List.mem_cons] at hx
    rcases hx with h | h
    · exact h ▸ Nat.mod_lt _ (by omega)
    · exact ih _ x h

theorem fromBytesLE_toBytesLE (w n : Nat) :
    fromBytesLE (toBytesLE w n) = n % 256 ^ w := by
  induction w generalizing n with
  | zero => simp [toBytesLE, fromBytesLE, Nat.mod_one]
  | succ w ih =>
    simp only [toBytesLE, fromBytesLE, ih]
    rw [pow_succ, Nat.mul_comm (256 ^ w) 256, Nat.mod_mul]

theorem fromBytesLE_lt (b : List Nat) (h : ∀ x ∈ b, x < 256) :
    fromBytesLE b < 256 ^ b.length := by
  induction b with
  | nil => simp [fromBytesLE]
  | cons x rest ih =>
    have hx : x < 256 := h x (List.mem_cons_self x rest)
    have hr : fromBytesLE rest < 256 ^ rest.length :=
      ih fun y hy => h y (List.mem_cons_of_mem x hy)
    have hp : (256 : Nat) ^ (rest.length + 1) = 256 * 256 ^ rest.length :=
      by rw [pow_succ, Nat.mul_comm]
    simp only [fromBytesLE, List.length_cons, hp]
    omega

theorem toBytesLE_fromBytesLE (b : List Nat) (h : ∀ x ∈ b, x < 256) :
    toBytesLE b.length (fromBytesLE b) = b := by
  induction b with
  | nil => rfl
  | cons x rest ih =>
    have hx : x < 256 := h x (List.mem_cons_self x rest)
    have hmod : (x + 256 * fromBytesLE rest) % 256 = x := by
      rw [Nat.add_mul_mod_self_left, Nat.mod_eq_of_lt hx]
    have hdiv : (x + 256 * fromBytesLE rest) / 256 = fromBytesLE rest := by
      rw [Nat.add_mul_div_left _ _ (by omega), Nat.div_eq_of_lt hx, Nat.zero_add]
    simp only [List.length_cons, toBytesLE, fromBytesLE, hmod, hdiv]
    rw [ih fun y hy => h y (List.mem_cons_of_mem x hy)]

theorem to_be_toBytesLE (w n : Nat) :
    toBytesLE w (to_be w n) = (toBytesLE w n).reverse := by
  have hlen : (toBytesLE w n).reverse.length = w := by
    rw [List.length_reverse, toBytesLE_length]
  have hmem : ∀ x ∈ (toBytesLE w n).reverse, x < 256 := by
    intro x hx
    exact toBytesLE_mem_lt w n x (List.mem_reverse.mp hx)
  calc toBytesLE w (to_be w n)
      = toBytesLE (toBytesLE w n).reverse.length
          (fromBytesLE (toBytesLE w n).reverse) := by rw [hlen]; rfl
    _ = (toBytesLE w n).reverse := toBytesLE_fromBytesLE _ hmem

theorem to_be_lt (w n : Nat) : to_be w n < 256 ^ w := by
  have h := fromBytesLE_lt (toBytesLE w n).reverse (by
    intro x hx
    exact toBytesLE_mem_lt w n x (List.mem_reverse.mp hx))
  rwa [List.length_reverse, toBytesLE_length] at h

theorem to_be_to_be (w n : Nat) (h : n < 256 ^ w) :
    to_be w (to_be w n) = n := by
  show fromBytesLE (toBytesLE w (to_be w n)).reverse = n
  rw [to_be_toBytesLE, List.reverse_reverse, fromBytesLE_toBytesLE,
    Nat.mod_eq_of_lt h]

theorem convert_lt (p : ByteOrderPolicy) (w n : Nat) (h : n < 256 ^ w) :
    convert p w n < 256 ^ w := by
  cases p with
  | LittleEndian => exact h
  | BigEndian => exact to_be_lt w n

theorem convert_convert (p : ByteOrderPolicy) (w n : Nat) (h : n < 256 ^ w) :
    convert p w (convert p w n) = n := by
  cases p with
  | LittleEndian => rfl
  | BigEndian => exact to_be_to_be w n h

/-- C1: for every supported numeric type, every policy and every
representable value (bit pattern below 256 ^ byteSize t, which covers NaN
patterns, signed zeros and infinities for the float types, since the
conversions act on bit patterns), from_bytes inverts into_bytes
bit-exactly. -/
theorem round_trip (p : ByteOrderPolicy) (t : NumTy) (n : Nat)
    (h : n < 256 ^ byteSize t) :
    from_bytes p t (into_bytes p t n) = n := by
  unfold from_bytes into_bytes
  rw [fromBytesLE_toBytesLE, Nat.mod_eq_of_lt (convert_lt p _ n h),
    convert_convert p _ n h]

theorem round_trip_witness :
    (9221120237041090561 : Nat) < 256 ^ byteSize NumTy.f64 ∧
    from_bytes ByteOrderPolicy.BigEndian NumTy.f64
        (into_bytes ByteOrderPolicy.BigEndian NumTy.f64 9221120237041090561) =
      9221120237041090561 :=
  ⟨by decide,
    round_trip ByteOrderPolicy.BigEndian NumTy.f64 9221120237041090561
      (by decide)⟩

/-- C2: the NetworkByteOrder alias resolves to LittleEndian (not to
BigEndian, the conventional network byte order), so its from_bytes,
into_bytes and buffer operations agree with the LittleEndian ones on
every input. -/
theorem network_byte_order_is_little_endian :
    NetworkByteOrder = ByteOrderPolicy.LittleEndian ∧
    NetworkByteOrder ≠ ByteOrderPolicy.BigEndian ∧
    (∀ t buf, from_bytes NetworkByteOrder t buf =
      from_bytes ByteOrderPolicy.LittleEndian t buf) ∧
    (∀ t n, into_bytes NetworkByteOrder t n =
      into_bytes ByteOrderPolicy.LittleEndian t n) ∧
    (∀ t, buffer NetworkByteOrder t = buffer ByteOrderPolicy.LittleEndian t) :=
  ⟨rfl, by decide, fun _ _ => rfl, fun _ _ => rfl, fun _ => rfl⟩

/-- C3: when the single read attempt issued by read_as delivers fewer
bytes than the buffer length sizeof(T), read_as returns the generic
"could not read all bytes" error and no value; the definition of read_as
issues exactly one call to the underlying reader, so no further read is
made to accumulate the rest. -/
theorem read_as_short_read {σ : Type}
    (read : σ → Nat → Except String (List Nat) × σ)
    (p : ByteOrderPolicy) (t : NumTy) (s : σ) (d : List Nat) (s' : σ)
    (hread : read s (buffer p t).length = (Except.ok d, s'))
    (hshort : d.length < (buffer p t).length) :
    read_as read p t s = (Except.error "could not read all bytes", s') := by
  unfold read_as
  simp only [hread]
  rw [if_pos (Nat.ne_of_lt hshort)]

theorem read_as_short_read_witness :
    sliceRead [1] (buffer ByteOrderPolicy.LittleEndian NumTy.u16).length =
      (Except.ok [1], []) ∧
    ([1] : List Nat).length <
      (buffer ByteOrderPolicy.LittleEndian NumTy.u16).length ∧
    read_as sliceRead ByteOrderPolicy.LittleEndian NumTy.u16 [1] =
      (Except.error "could not read all bytes", []) :=
  ⟨rfl, by decide,
    read_as_short_read sliceRead ByteOrderPolicy.LittleEndian NumTy.u16
      [1] [1] [] rfl (by decide)⟩

/-- C4: for every type and value, the LittleEndian byte image is the
reversal of the BigEndian byte image; consequently, whenever the byte
image is not palindromic (which requires a multi-byte type), the two
policies produce different buffers. -/
theorem little_endian_reverse_of_big_endian (t : NumTy) (n : Nat) :
    into_bytes ByteOrderPolicy.LittleEndian t n =
      (into_bytes ByteOrderPolicy.BigEndian t n).reverse ∧
    (into_bytes ByteOrderPolicy.LittleEndian t n ≠
        (into_bytes ByteOrderPolicy.LittleEndian t n).reverse →
      into_bytes ByteOrderPolicy.LittleEndian t n ≠
        into_bytes ByteOrderPolicy.BigEndian t n) := by
  have hrev : into_bytes ByteOrderPolicy.BigEndian t n =
      (into_bytes ByteOrderPolicy.LittleEndian t n).reverse := by
    show toBytesLE (byteSize t) (to_be (byteSize t) n) = _
    rw [to_be_toBytesLE]
    rfl
  constructor
  · rw [hrev, List.reverse_reverse]
  · intro hpal
    rw [hrev]
    exact hpal

theorem little_endian_reverse_of_big_endian_witness :
    into_bytes ByteOrderPolicy.LittleEndian NumTy.u16 258 ≠
      into_bytes ByteOrderPolicy.BigEndian NumTy.u16 258 :=
  (little_endian_reverse_of_big_endian NumTy.u16 258).2 (by decide)

/-- C5: the two-byte buffer [1, 2] decodes as the u16 value 513 under the
LittleEndian policy and 258 under the BigEndian policy. -/
theorem from_bytes_u16_example :
    from_bytes ByteOrderPolicy.LittleEndian NumTy.u16 [1, 2] = 513 ∧
    from_bytes ByteOrderPolicy.BigEndian NumTy.u16 [1, 2] = 258 := by
  decide

/-- C6: the u32 value 0x01020304 encodes as the buffer [1, 2, 3, 4] under
the BigEndian policy and [4, 3, 2, 1] under the LittleEndian policy. -/
theorem into_bytes_u32_example :
    into_bytes ByteOrderPolicy.BigEndian NumTy.u32 0x01020304 =
      [1, 2, 3, 4] ∧
    into_bytes ByteOrderPolicy.LittleEndian NumTy.u32 0x01020304 =
      [4, 3, 2, 1] := by
  decide

/-- C7: writing a representable value with write_as to an empty in-memory
sink and reading back with read_as from the resulting bytes succeeds and
yields the original value, for every type and policy. -/
theorem stream_round_trip (p : ByteOrderPolicy) (t : NumTy) (n : Nat)
    (h : n < 256 ^ byteSize t) :
    (write_as vecWrite p t n []).1 = Except.ok () ∧
    read_as sliceRead p t (write_as vecWrite p t n []).2 =
      (Except.ok n, []) := by
  refine ⟨rfl, ?_⟩
  have hw : (write_as vecWrite p t n []).2 = into_bytes p t n := by
    simp [write_as, vecWrite]
  rw [hw]
  have hlen : (into_bytes p t n).length = (buffer p t).length := by
    show (toBytesLE (byteSize t) (convert p (byteSize t) n)).length = _
    rw [toBytesLE_length, buffer, List.length_replicate]
  have htake : (into_bytes p t n).take (buffer p t).length =
      into_bytes p t n := by
    rw [← hlen, List.take_length]
  have hdrop : (into_bytes p t n).drop (buffer p t).length = [] := by
    rw [← hlen, List.drop_length]
  have hfill : fillBuffer (buffer p t) (into_bytes p t n) =
      into_bytes p t n := by
    unfold fillBuffer
    rw [hlen, List.drop_length, List.append_nil]
  unfold read_as
  simp only [sliceRead, htake, hdrop]
  rw [if_neg (by simp [hlen]), hfill, round_trip p t n h]

theorem stream_round_trip_witness :
    (16909060 : Nat) < 256 ^ byteSize NumTy.u32 ∧
    ((write_as vecWrite ByteOrderPolicy.BigEndian NumTy.u32 16909060 []).1 =
        Except.ok () ∧
      read_as sliceRead ByteOrderPolicy.BigEndian NumTy.u32
          (write_as vecWrite ByteOrderPolicy.BigEndian NumTy.u32
            16909060 []).2 =
        (Except.ok 16909060, [])) :=
  ⟨by decide,
    stream_round_trip ByteOrderPolicy.BigEndian NumTy.u32 16909060
      (by decide)⟩

/-- C8: for every policy and type, buffer() is the zero-filled list of
exactly byteSize t bytes (1, 2, 4 or 8), and into_bytes always produces
exactly byteSize t bytes; from_bytes consumes a buffer of that same fixed
length (its Rust argument type is the fixed-size array Buffer). -/
theorem buffer_zeroed_and_sized (p : ByteOrderPolicy) (t : NumTy) (n : Nat) :
    buffer p t = List.replicate (byteSize t) 0 ∧
    (buffer p t).length = byteSize t ∧
    (buffer p t).all (fun x => x == 0) = true ∧
    (byteSize t = 1 ∨ byteSize t = 2 ∨ byteSize t = 4 ∨ byteSize t = 8) ∧
    (into_bytes p t n).length = byteSize t := by
  refine ⟨rfl, List.length_replicate _ _, ?_, ?_, toBytesLE_length _ _⟩
  · cases t <;> rfl
  · cases t <;> decide

/-- C9: the conversions are bijections in the other direction as well:
for every policy and type, into_bytes inverts from_bytes on every buffer
of exactly byteSize t bytes (each below 256), including buffers encoding
float NaN bit patterns. -/
theorem bytes_round_trip (p : ByteOrderPolicy) (t : NumTy) (b : List Nat)
    (hlen : b.length = byteSize t) (hbytes : ∀ x ∈ b, x < 256) :
    into_bytes p t (from_bytes p t b) = b := by
  have hfb : fromBytesLE b < 256 ^ byteSize t := by
    have h := fromBytesLE_lt b hbytes
    rwa [hlen] at h
  unfold into_bytes from_bytes
  rw [convert_convert p _ _ hfb]
  calc toBytesLE (byteSize t) (fromBytesLE b)
      = toBytesLE b.length (fromBytesLE b) := by rw [hlen]
    _ = b := toBytesLE_fromBytesLE b hbytes

theorem bytes_round_trip_witness :
    ([1, 0, 192, 127] : List Nat).length = byteSize NumTy.f32 ∧
    into_bytes ByteOrderPolicy.LittleEndian NumTy.f32
        (from_bytes ByteOrderPolicy.LittleEndian NumTy.f32
          [1, 0, 192, 127]) =
      [1, 0, 192, 127] :=
  ⟨by decide,
    bytes_round_trip ByteOrderPolicy.LittleEndian NumTy.f32
      [1, 0, 192, 127] (by decide) (by decide)⟩

/-- C10: when read_as fails on a byte-slice source holding fewer than
byteSize t bytes, the bytes the single read attempt did deliver (all of
the remaining input) are already consumed: the source advances past
exactly the delivered bytes, leaving it empty, so the failure is not
atomic and the consumed bytes are lost to the caller. -/
theorem read_as_consumes_short_input (p : ByteOrderPolicy) (t : NumTy)
    (s : List Nat) (h : s.length < byteSize t) :
    read_as sliceRead p t s =
      (Except.error "could not read all bytes",
        s.drop (s.take (buffer p t).length).length) ∧
    (s.take (buffer p t).length).length = s.length ∧
    s.drop (s.take (buffer p t).length).length = [] := by
  have hbuf : (buffer p t).length = byteSize t := List.length_replicate _ _
  have htl : (s.take (buffer p t).length).length = s.length := by
    rw [List.length_take, hbuf]
    omega
  have hdrop2 : s.drop (s.take (buffer p t).length).length = [] := by
    rw [htl, List.drop_length]
  have hdrop1 : s.drop (buffer p t).length = [] := by
    apply List.drop_eq_nil_of_le
    rw [hbuf]
    omega
  refine ⟨?_, htl, hdrop2⟩
  unfold read_as
  simp only [sliceRead]
  rw [if_pos (by rw [htl, hbuf]; omega), hdrop1, hdrop2]

theorem read_as_consumes_short_input_witness :
    ([5, 6] : List Nat).length < byteSize NumTy.u32 ∧
    read_as sliceRead ByteOrderPolicy.BigEndian NumTy.u32 [5, 6] =
      (Except.error "could not read all bytes", []) :=
  ⟨by decide,
    by
      have h := read_as_consumes_short_input ByteOrderPolicy.BigEndian
        NumTy.u32 [5, 6] (by decide)
      rw [h.1, h.2.2]⟩

end Byteio
